import Mathlib

/-!
Verification of the template normalizer `parse_internal` from `src/lib.rs`
of the `errors` crate.

The Rust function scans a format string once, left to right:
* a character other than `{` is copied to the output verbatim (line 50-53);
* `{` followed by another `{` is an escape, copied as the literal `{{`
  (lines 56-60);
* otherwise a placeholder sub-scan starts (lines 62-96): characters are
  collected into an identifier buffer until `:` or `}`; after a `:` every
  character up to (but excluding) the closing `}` is collected into an
  optional specifier buffer (`traits`, lines 64-76); on `}` the identifier
  is canonicalized (lines 78-87), the token `{ident(:spec)?}` is appended to
  the output and the identifier inserted into a set (lines 89-92); if the
  input ends inside the sub-scan, the collected fragment is discarded.

The nested Rust loops all advance one shared character iterator, so they are
embedded as a single structurally recursive scanner `parseRun` over the
remaining characters with a three-valued scan state (top level / reading the
identifier / reading the specifier), exactly the two-level state machine the
loops implement.  `BTreeSet<String>` is modelled as `Finset String`, `i32`
as `Int`, and `str` as `List Char` (`String` at the outer interface).
-/

/-- One step of Rust's `u8::from_str` digit loop: accumulate ASCII digits,
failing on a non-digit or when the accumulated value leaves the `u8` range
(checked multiply/add, i.e. result `≤ 255` after every step). -/
def u8Loop : List Char → Nat → Option Nat
  | [], acc => some acc
  | c :: cs, acc =>
    if c.isDigit then
      let acc2 := acc * 10 + (c.toNat - 48)
      if acc2 ≤ 255 then u8Loop cs acc2 else none
    else none

/-- Rust's `identifier.parse::<u8>().is_ok()` (line 85): an optional leading
`+`, then at least one ASCII digit, all digits, value at most 255.  A leading
`-` or an empty digit string is rejected. -/
def parsesAsU8 : List Char → Bool
  | [] => false
  | c :: cs =>
    if c = '+' then
      match cs with
      | [] => false
      | _ :: _ => (u8Loop cs 0).isSome
    else (u8Loop (c :: cs) 0).isSome

/-- Lines 78-87 of `parse_internal`: on the closing `}`, an empty identifier
takes the next value of the positional counter as `__<index>`; then an
identifier that parses as a `u8` is prefixed with `__`.  Returns the
canonical identifier and the updated counter. -/
def canonicalize (identifier : List Char) (n : Int) : List Char × Int :=
  let p :=
    if identifier = [] then ('_' :: '_' :: (toString (n + 1)).data, n + 1)
    else (identifier, n)
  if parsesAsU8 p.1 then ('_' :: '_' :: p.1, p.2) else p

/-- Line 89: `traits.as_ref().map(|c| format!(":{c}")).unwrap_or_default()` —
the captured specifier is re-attached with its leading `:`, an absent
specifier contributes nothing. -/
def tStr : Option (List Char) → List Char
  | some t => ':' :: t
  | none => []

/-- The scanner state of `parse_internal`: at top level (outer loop,
line 49), inside a placeholder reading the identifier (inner loop, line 63),
or inside a placeholder reading the specifier (innermost loop, line 66).
The two buffers mirror the Rust locals `identifier` and `traits`. -/
inductive ScanState where
  | top : ScanState
  | ident (identifier : List Char) (traits : Option (List Char)) : ScanState
  | spec (identifier : List Char) (traits : Option (List Char)) : ScanState
deriving DecidableEq, Repr

/-- The whole scan of `parse_internal` (lines 47-99) as one structural
recursion over the remaining input.  Arguments: remaining characters, scan
state, output buffer `text`, identifier set, positional counter (starts at
`-1`).  End of input discards any placeholder in progress, as the Rust inner
`while let` simply runs out. -/
def parseRun : List Char → ScanState → List Char → Finset String → Int →
    List Char × Finset String
  | [], _, text, ids, _ => (text, ids)
  | '{' :: '{' :: cs, ScanState.top, text, ids, n =>
    parseRun cs ScanState.top (text ++ ['{', '{']) ids n
  | c :: cs, ScanState.top, text, ids, n =>
    if c = '{' then parseRun cs (ScanState.ident [] none) text ids n
    else parseRun cs ScanState.top (text ++ [c]) ids n
  | c :: cs, ScanState.ident identifier traits, text, ids, n =>
    if c = ':' then parseRun cs (ScanState.spec identifier traits) text ids n
    else if c = '}' then
      parseRun cs ScanState.top
        (text ++ '{' :: (canonicalize identifier n).1 ++ tStr traits ++ ['}'])
        (insert (String.mk (canonicalize identifier n).1) ids)
        (canonicalize identifier n).2
    else parseRun cs (ScanState.ident (identifier ++ [c]) traits) text ids n
  | c :: cs, ScanState.spec identifier traits, text, ids, n =>
    if c = '}' then
      parseRun cs ScanState.top
        (text ++ '{' :: (canonicalize identifier n).1 ++ tStr traits ++ ['}'])
        (insert (String.mk (canonicalize identifier n).1) ids)
        (canonicalize identifier n).2
    else
      parseRun cs (ScanState.spec identifier (some (traits.getD [] ++ [c]))) text ids n

/-- `parse_internal` (line 45): scan the whole string starting at top level
with empty buffers and the positional counter at `-1`; return the rewritten
text and the set of canonical identifiers. -/
def parse_internal (s : String) : String × Finset String :=
  let r := parseRun s.data ScanState.top [] ∅ (-1)
  (String.mk r.1, r.2)

example : parse_internal "{} {} {}" = ("{__0} {__1} {__2}", {"__0", "__1", "__2"}) := by
  decide

example : parse_internal "{} {1} {0} {}" = ("{__0} {__1} {__0} {__1}", {"__0", "__1"}) := by
  decide

example : parse_internal "{value:?}" = ("{value:?}", {"value"}) := by decide

example : parse_internal "{num:04x} {num:#x}" = ("{num:04x} {num:#x}", {"num"}) := by decide

example : parse_internal "Hi {}! Im {name}, {} yrs" =
    ("Hi {__0}! Im {name}, {__1} yrs", {"__0", "name", "__1"}) := by decide

example : parse_internal "{256}" = ("{256}", {"256"}) := by decide

example : parse_internal (String.mk ['{', 'a', '{', 'b', '}']) =
    (String.mk ['{', 'a', '{', 'b', '}'], {String.mk ['a', '{', 'b']}) := by decide

example : parse_internal (String.mk ['a', '{', 'b', '}', '{', 'q', ':', 'x']) =
    ("a{b}", {"b"}) := by decide

example : parse_internal "{{escaped}} {{braces}} {name}" =
    ("{{escaped}} {{braces}} {name}", {"name"}) := by decide

example : parse_internal "User {name}: {age} yrs, {height:.2}m, ID: {:08x}" =
    ("User {name}: {age} yrs, {height:.2}m, ID: {__0:08x}",
      {"name", "age", "height", "__0"}) := by decide

/-! ### Reduction lemmas for the scanner, one per arm of `parseRun` -/

theorem parseRun_nil (st : ScanState) (text : List Char) (ids : Finset String) (n : Int) :
    parseRun [] st text ids n = (text, ids) := by
  cases st <;> rfl

theorem parseRun_esc (cs text : List Char) (ids : Finset String) (n : Int) :
    parseRun ('{' :: '{' :: cs) ScanState.top text ids n =
      parseRun cs ScanState.top (text ++ ['{', '{']) ids n := rfl

theorem parseRun_top_char (c : Char) (cs text : List Char) (ids : Finset String) (n : Int)
    (h : c ≠ '{') :
    parseRun (c :: cs) ScanState.top text ids n =
      parseRun cs ScanState.top (text ++ [c]) ids n := by
  cases cs with
  | nil => simp [parseRun, h]
  | cons d cs => simp [parseRun, h]

theorem parseRun_open_nil (text : List Char) (ids : Finset String) (n : Int) :
    parseRun ['{'] ScanState.top text ids n = (text, ids) := rfl

theorem parseRun_open (k : Char) (cs text : List Char) (ids : Finset String) (n : Int)
    (h : k ≠ '{') :
    parseRun ('{' :: k :: cs) ScanState.top text ids n =
      parseRun (k :: cs) (ScanState.ident [] none) text ids n := by
  simp [parseRun, h]

theorem parseRun_colon (cs id : List Char) (t : Option (List Char)) (text : List Char)
    (ids : Finset String) (n : Int) :
    parseRun (':' :: cs) (ScanState.ident id t) text ids n =
      parseRun cs (ScanState.spec id t) text ids n := by
  simp [parseRun]

theorem parseRun_close_ident (cs id : List Char) (t : Option (List Char)) (text : List Char)
    (ids : Finset String) (n : Int) :
    parseRun ('}' :: cs) (ScanState.ident id t) text ids n =
      parseRun cs ScanState.top (text ++ '{' :: (canonicalize id n).1 ++ tStr t ++ ['}'])
        (insert (String.mk (canonicalize id n).1) ids) (canonicalize id n).2 := by
  simp [parseRun]

theorem parseRun_ident_char (c : Char) (cs id : List Char) (t : Option (List Char))
    (text : List Char) (ids : Finset String) (n : Int) (h1 : c ≠ ':') (h2 : c ≠ '}') :
    parseRun (c :: cs) (ScanState.ident id t) text ids n =
      parseRun cs (ScanState.ident (id ++ [c]) t) text ids n := by
  simp [parseRun, h1, h2]

theorem parseRun_close_spec (cs id : List Char) (t : Option (List Char)) (text : List Char)
    (ids : Finset String) (n : Int) :
    parseRun ('}' :: cs) (ScanState.spec id t) text ids n =
      parseRun cs ScanState.top (text ++ '{' :: (canonicalize id n).1 ++ tStr t ++ ['}'])
        (insert (String.mk (canonicalize id n).1) ids) (canonicalize id n).2 := by
  simp [parseRun]

theorem parseRun_spec_char (c : Char) (cs id : List Char) (t : Option (List Char))
    (text : List Char) (ids : Finset String) (n : Int) (h : c ≠ '}') :
    parseRun (c :: cs) (ScanState.spec id t) text ids n =
      parseRun cs (ScanState.spec id (some (t.getD [] ++ [c]))) text ids n := by
  simp [parseRun, h]

/-! ### Walking lemmas: bulk moves of the scanner over uniform character runs -/

/-- At top level a run of non-`{` characters is copied verbatim. -/
theorem parseRun_top_walk : ∀ (xs cs text : List Char) (ids : Finset String) (n : Int),
    '{' ∉ xs →
    parseRun (xs ++ cs) ScanState.top text ids n = parseRun cs ScanState.top (text ++ xs) ids n
  | [], cs, text, ids, n, _ => by simp
  | a :: xs, cs, text, ids, n, hx => by
    have ha : a ≠ '{' := fun e => hx (e ▸ List.mem_cons_self a xs)
    rw [List.cons_append, parseRun_top_char a _ _ _ _ ha,
      parseRun_top_walk xs cs (text ++ [a]) ids n (fun m => hx (List.mem_cons_of_mem a m))]
    simp

/-- Inside a placeholder a run of characters other than `:` and `}` is
collected into the identifier buffer. -/
theorem parseRun_ident_walk : ∀ (xs cs id : List Char) (t : Option (List Char))
    (text : List Char) (ids : Finset String) (n : Int),
    (∀ c ∈ xs, c ≠ ':' ∧ c ≠ '}') →
    parseRun (xs ++ cs) (ScanState.ident id t) text ids n =
      parseRun cs (ScanState.ident (id ++ xs) t) text ids n
  | [], cs, id, t, text, ids, n, _ => by simp
  | a :: xs, cs, id, t, text, ids, n, hx => by
    have ha := hx a (List.mem_cons_self a xs)
    rw [List.cons_append, parseRun_ident_char a _ _ _ _ _ _ ha.1 ha.2,
      parseRun_ident_walk xs cs (id ++ [a]) t text ids n (fun c m => hx c (List.mem_cons_of_mem a m))]
    simp

/-- In specifier mode a nonempty run of non-`}` characters is collected into
the specifier buffer, creating it if absent. -/
theorem parseRun_spec_walk : ∀ (xs cs id : List Char) (t : Option (List Char))
    (text : List Char) (ids : Finset String) (n : Int),
    xs ≠ [] → '}' ∉ xs →
    parseRun (xs ++ cs) (ScanState.spec id t) text ids n =
      parseRun cs (ScanState.spec id (some (t.getD [] ++ xs))) text ids n
  | [], _, _, _, _, _, _, hne, _ => absurd rfl hne
  | [a], cs, id, t, text, ids, n, _, hx => by
    have ha : a ≠ '}' := fun e => hx (e ▸ List.mem_cons_self a [])
    rw [List.singleton_append, parseRun_spec_char a _ _ _ _ _ _ ha]
  | a :: b :: xs, cs, id, t, text, ids, n, _, hx => by
    have ha : a ≠ '}' := fun e => hx (e ▸ List.mem_cons_self a (b :: xs))
    rw [List.cons_append, parseRun_spec_char a _ _ _ _ _ _ ha,
      parseRun_spec_walk (b :: xs) cs id (some (t.getD [] ++ [a])) text ids n (by simp)
        (fun m => hx (List.mem_cons_of_mem a m))]
    simp

/-! ### Facts about the `u8` parse -/

theorem u8Loop_eq_foldl : ∀ (cs : List Char) (acc v : Nat),
    u8Loop cs acc = some v → v = cs.foldl (fun a c => a * 10 + (c.toNat - 48)) acc
  | [], acc, v, h => by
    simp [u8Loop] at h
    simp [h]
  | c :: cs, acc, v, h => by
    by_cases hd : c.isDigit
    · by_cases h2 : acc * 10 + (c.toNat - 48) ≤ 255
      · rw [u8Loop, if_pos hd, if_pos h2] at h
        simpa using u8Loop_eq_foldl cs _ v h
      · rw [u8Loop, if_pos hd, if_neg h2] at h
        cases h
    · rw [u8Loop, if_neg hd] at h
      cases h

theorem u8Loop_le : ∀ (cs : List Char) (acc v : Nat),
    cs ≠ [] → u8Loop cs acc = some v → v ≤ 255
  | [], _, _, hne, _ => absurd rfl hne
  | c :: cs, acc, v, _, h => by
    by_cases hd : c.isDigit
    · by_cases h2 : acc * 10 + (c.toNat - 48) ≤ 255
      · rw [u8Loop, if_pos hd, if_pos h2] at h
        cases cs with
        | nil =>
          rw [u8Loop] at h
          cases h
          exact h2
        | cons d ds => exact u8Loop_le (d :: ds) _ v (by simp) h
      · rw [u8Loop, if_pos hd, if_neg h2] at h
        cases h
    · rw [u8Loop, if_neg hd] at h
      cases h

theorem u8Loop_digits : ∀ (cs : List Char) (acc v : Nat),
    u8Loop cs acc = some v → ∀ c ∈ cs, c.isDigit = true
  | [], _, _, _, c, hm => by cases hm
  | c :: cs, acc, v, h, d, hm => by
    by_cases hd : c.isDigit
    · by_cases h2 : acc * 10 + (c.toNat - 48) ≤ 255
      · rw [u8Loop, if_pos hd, if_pos h2] at h
        rcases List.mem_cons.mp hm with e | m
        · exact e ▸ hd
        · exact u8Loop_digits cs _ v h d m
      · rw [u8Loop, if_pos hd, if_neg h2] at h
        cases h
    · rw [u8Loop, if_neg hd] at h
      cases h

theorem u8Loop_cons_not_digit (c : Char) (cs : List Char) (acc : Nat) (h : c.isDigit = false) :
    u8Loop (c :: cs) acc = none := by
  simp [u8Loop, h]

theorem parsesAsU8_cons (c : Char) (cs : List Char) :
    parsesAsU8 (c :: cs) =
      if c = '+' then
        match cs with
        | [] => false
        | _ :: _ => (u8Loop cs 0).isSome
      else (u8Loop (c :: cs) 0).isSome := rfl

/-- An identifier whose first character is neither `+` nor a digit never
parses as a `u8`. -/
theorem parsesAsU8_head_false (c : Char) (l : List Char) (h1 : c ≠ '+') (h2 : c.isDigit = false) :
    parsesAsU8 (c :: l) = false := by
  rw [parsesAsU8_cons, if_neg h1, u8Loop_cons_not_digit c l 0 h2]
  rfl

theorem parsesAsU8_chars (id : List Char) (h : parsesAsU8 id = true) :
    ∀ c ∈ id, c = '+' ∨ c.isDigit = true := by
  cases id with
  | nil => intro c hm; cases hm
  | cons a cs =>
    intro c hm
    by_cases ha : a = '+'
    · rw [parsesAsU8_cons, if_pos ha] at h
      cases cs with
      | nil => exact absurd h (by decide)
      | cons b bs =>
        rcases List.mem_cons.mp hm with e | m
        · exact Or.inl (e.trans ha)
        · cases hs : u8Loop (b :: bs) 0 with
          | none => rw [hs] at h; simp at h
          | some v => exact Or.inr (u8Loop_digits (b :: bs) 0 v hs c m)
    · rw [parsesAsU8_cons, if_neg ha] at h
      cases hs : u8Loop (a :: cs) 0 with
      | none => rw [hs] at h; exact absurd h (by decide)
      | some v => exact Or.inr (u8Loop_digits (a :: cs) 0 v hs c hm)

theorem isDigit_ne (c : Char) (h : c.isDigit = true) : c ≠ ':' ∧ c ≠ '}' ∧ c ≠ '{' := by
  refine ⟨?_, ?_, ?_⟩ <;> intro e <;> rw [e] at h <;> exact absurd h (by decide)

/-! ### The three canonicalization rules of lines 78-87 -/

/-- Rule 1: an empty identifier consumes the counter, giving `__<n+1>`. -/
theorem canonicalize_empty (n : Int) :
    canonicalize [] n = ('_' :: '_' :: (toString (n + 1)).data, n + 1) := by
  simp [canonicalize,
    parsesAsU8_head_false '_' ('_' :: (toString (n + 1)).data) (by decide) (by decide)]

/-- Rule 2: an identifier accepted by the `u8` parse is prefixed with `__`
and the counter is untouched. -/
theorem canonicalize_u8 (id : List Char) (n : Int) (h : parsesAsU8 id = true) :
    canonicalize id n = ('_' :: '_' :: id, n) := by
  have hne : id ≠ [] := by
    intro e
    rw [e] at h
    exact absurd h (by decide)
  simp [canonicalize, hne, h]

/-- Rule 3: any other nonempty identifier is left unchanged and the counter
is untouched. -/
theorem canonicalize_named (id : List Char) (n : Int) (hne : id ≠ [])
    (h : parsesAsU8 id = false) : canonicalize id n = (id, n) := by
  simp [canonicalize, hne, h]

/-- The numeric value of a digit string, as unbounded arithmetic. -/
def digitsVal (ds : List Char) : Nat := ds.foldl (fun a c => a * 10 + (c.toNat - 48)) 0

/-- A digit string whose value exceeds 255 is rejected by the `u8` parse
(checked arithmetic: no wrap-around). -/
theorem parsesAsU8_overflow (ds : List Char) (hd : ∀ c ∈ ds, c.isDigit = true)
    (hv : 255 < digitsVal ds) : parsesAsU8 ds = false := by
  cases ds with
  | nil => rfl
  | cons c cs =>
    have hc : c ≠ '+' := by
      intro e
      have hh := hd c (List.mem_cons_self c cs)
      rw [e] at hh
      exact absurd hh (by decide)
    rw [parsesAsU8_cons, if_neg hc]
    cases hs : u8Loop (c :: cs) 0 with
    | none => rfl
    | some v =>
      have h1 := u8Loop_eq_foldl (c :: cs) 0 v hs
      have h2 := u8Loop_le (c :: cs) 0 v (by simp) hs
      rw [digitsVal] at hv
      omega

/-! ### Truncation on end-of-input inside a placeholder -/

/-- If the rest of the input contains no `}`, a specifier scan in progress
reaches end of input and the collected fragment is discarded: the output and
identifier set accumulated so far are returned unchanged. -/
theorem parseRun_spec_trunc : ∀ (cs id : List Char) (t : Option (List Char)) (text : List Char)
    (ids : Finset String) (n : Int), '}' ∉ cs →
    parseRun cs (ScanState.spec id t) text ids n = (text, ids)
  | [], _, _, text, ids, n, _ => parseRun_nil _ text ids n
  | c :: cs, id, t, text, ids, n, hx => by
    have hc : c ≠ '}' := fun e => hx (e ▸ List.mem_cons_self c cs)
    rw [parseRun_spec_char c cs id t text ids n hc]
    exact parseRun_spec_trunc cs id _ text ids n (fun m => hx (List.mem_cons_of_mem c m))

/-- Same as `parseRun_spec_trunc` for an identifier scan in progress. -/
theorem parseRun_ident_trunc : ∀ (cs id : List Char) (t : Option (List Char)) (text : List Char)
    (ids : Finset String) (n : Int), '}' ∉ cs →
    parseRun cs (ScanState.ident id t) text ids n = (text, ids)
  | [], _, _, text, ids, n, _ => parseRun_nil _ text ids n
  | c :: cs, id, t, text, ids, n, hx => by
    have hc : c ≠ '}' := fun e => hx (e ▸ List.mem_cons_self c cs)
    by_cases h1 : c = ':'
    · subst h1
      rw [parseRun_colon]
      exact parseRun_spec_trunc cs id t text ids n (fun m => hx (List.mem_cons_of_mem _ m))
    · rw [parseRun_ident_char c cs id t text ids n h1 hc]
      exact parseRun_ident_trunc cs _ t text ids n (fun m => hx (List.mem_cons_of_mem c m))

/-- A `{` that opens a placeholder whose body never closes produces nothing:
everything accumulated before it is returned as is. -/
theorem parseRun_open_trunc (cs text : List Char) (ids : Finset String) (n : Int)
    (h1 : cs.head? ≠ some '{') (h2 : '}' ∉ cs) :
    parseRun ('{' :: cs) ScanState.top text ids n = (text, ids) := by
  cases cs with
  | nil => exact parseRun_open_nil text ids n
  | cons k cs =>
    have hk : k ≠ '{' := by simpa using h1
    rw [parseRun_open k cs text ids n hk]
    exact parseRun_ident_trunc (k :: cs) [] none text ids n h2

/-! ### The decimal rendering of the positional counter consists of digits -/

theorem digitChar_isDigit (m : Nat) (h : m < 10) : (Nat.digitChar m).isDigit = true := by
  interval_cases m <;> decide

theorem toDigitsCore_digits : ∀ (fuel n : Nat) (acc : List Char),
    ∀ c ∈ Nat.toDigitsCore 10 fuel n acc, c ∈ acc ∨ c.isDigit = true := by
  intro fuel
  induction fuel with
  | zero => intro n acc c hc; exact Or.inl hc
  | succ fuel ih =>
    intro n acc c hc
    rw [Nat.toDigitsCore] at hc
    by_cases h0 : n / 10 = 0
    · simp only [h0, if_pos rfl] at hc
      rcases List.mem_cons.mp hc with e | m
      · exact Or.inr (e ▸ digitChar_isDigit _ (Nat.mod_lt _ (by norm_num)))
      · exact Or.inl m
    · rw [if_neg h0] at hc
      rcases ih (n / 10) _ c hc with m | hd
      · rcases List.mem_cons.mp m with e | m2
        · exact Or.inr (e ▸ digitChar_isDigit _ (Nat.mod_lt _ (by norm_num)))
        · exact Or.inl m2
      · exact Or.inr hd

theorem natRepr_digits (k : Nat) : ∀ c ∈ (Nat.repr k).data, c.isDigit = true := by
  intro c hc
  have hc2 : c ∈ Nat.toDigitsCore 10 (k + 1) k [] := hc
  rcases toDigitsCore_digits (k + 1) k [] c hc2 with m | hd
  · cases m
  · exact hd

/-- The `ToString` rendering of a nonnegative `Int` (the positional counter
after its first increment) consists only of ASCII digits. -/
theorem intToString_digits (n : Int) (h : 0 ≤ n) :
    ∀ c ∈ (toString n).data, c.isDigit = true := by
  cases n with
  | ofNat m => intro c hc; exact natRepr_digits m c hc
  | negSucc m => simp at h

/-! ### Where the scanner begins placeholders (instrumentation for the
"every `{` begins a placeholder" invariant) -/

/-- Instrumentation of `parseRun`: it records the input position of every
`{` at which the scanner enters the placeholder sub-scan of line 62.  The
control flow mirrors `parseRun` arm for arm (the buffers never influence
branching). -/
def placeholderStartsAux : List Char → Nat → ScanState → List Nat
  | [], _, _ => []
  | '{' :: '{' :: cs, i, ScanState.top => placeholderStartsAux cs (i + 2) ScanState.top
  | c :: cs, i, ScanState.top =>
    if c = '{' then i :: placeholderStartsAux cs (i + 1) (ScanState.ident [] none)
    else placeholderStartsAux cs (i + 1) ScanState.top
  | c :: cs, i, ScanState.ident id t =>
    if c = ':' then placeholderStartsAux cs (i + 1) (ScanState.spec id t)
    else if c = '}' then placeholderStartsAux cs (i + 1) ScanState.top
    else placeholderStartsAux cs (i + 1) (ScanState.ident (id ++ [c]) t)
  | c :: cs, i, ScanState.spec id t =>
    if c = '}' then placeholderStartsAux cs (i + 1) ScanState.top
    else placeholderStartsAux cs (i + 1) (ScanState.spec id (some (t.getD [] ++ [c])))

/-- The positions of the input at which `parse_internal` begins a
placeholder sub-scan. -/
def placeholderStarts (s : String) : List Nat :=
  placeholderStartsAux s.data 0 ScanState.top

/-- The predicate of the spec sentence: position `i` of the character list
holds an opening `{` that is not immediately followed by another `{`. -/
def isOpenBrace (l : List Char) (i : Nat) : Prop :=
  l.get? i = some '{' ∧ l.get? (i + 1) ≠ some '{'

instance (l : List Char) (i : Nat) : Decidable (isOpenBrace l i) := by
  unfold isOpenBrace
  infer_instance

theorem isOpenBrace_cons (c : Char) (cs : List Char) (k : Nat) (h : isOpenBrace cs k) :
    isOpenBrace (c :: cs) (k + 1) := by
  obtain ⟨h1, h2⟩ := h
  exact ⟨by simpa using h1, by simpa using h2⟩

theorem placeholderStartsAux_sound : ∀ (N : Nat) (cs : List Char), cs.length ≤ N →
    ∀ (i : Nat) (st : ScanState) (j : Nat), j ∈ placeholderStartsAux cs i st →
      i ≤ j ∧ isOpenBrace cs (j - i) := by
  intro N
  induction N with
  | zero =>
    intro cs hlen i st j h
    obtain rfl : cs = [] := List.length_eq_zero.mp (Nat.le_zero.mp hlen)
    cases st <;> simp [placeholderStartsAux] at h
  | succ N ih =>
    intro cs hlen i st j h
    cases cs with
    | nil => cases st <;> simp [placeholderStartsAux] at h
    | cons c cs =>
      have hlen2 : cs.length ≤ N := by
        simp only [List.length_cons] at hlen
        omega
      have step : ∀ (st1 st2 : ScanState),
          j ∈ placeholderStartsAux cs (i + 1) st2 → i ≤ j ∧ isOpenBrace (c :: cs) (j - i) := by
        intro _ st2 hmem
        obtain ⟨hle, hob⟩ := ih cs hlen2 (i + 1) st2 j hmem
        refine ⟨by omega, ?_⟩
        have e : j - i = j - (i + 1) + 1 := by omega
        rw [e]
        exact isOpenBrace_cons _ _ _ hob
      cases st with
      | top =>
        by_cases hc : c = '{'
        · subst hc
          cases cs with
          | nil =>
            simp [placeholderStartsAux] at h
            refine ⟨by omega, ?_⟩
            have e : j - i = 0 := by omega
            rw [e]
            simp [isOpenBrace]
          | cons d cs2 =>
            by_cases hd : d = '{'
            · subst hd
              have h2 : j ∈ placeholderStartsAux cs2 (i + 2) ScanState.top := h
              have hlen3 : cs2.length ≤ N := by
                simp only [List.length_cons] at hlen2
                omega
              obtain ⟨hle, hob⟩ := ih cs2 (by omega) (i + 2) ScanState.top j h2
              refine ⟨by omega, ?_⟩
              have e : j - i = j - (i + 2) + 1 + 1 := by omega
              rw [e]
              exact isOpenBrace_cons _ _ _ (isOpenBrace_cons _ _ _ hob)
            · have e2 : placeholderStartsAux ('{' :: d :: cs2) i ScanState.top =
                  i :: placeholderStartsAux (d :: cs2) (i + 1) (ScanState.ident [] none) := by
                simp [placeholderStartsAux, hd]
              rw [e2] at h
              rcases List.mem_cons.mp h with rfl | h
              · refine ⟨le_refl j, ?_⟩
                simp [isOpenBrace, hd]
              · exact step ScanState.top (ScanState.ident [] none) h
        · have e : placeholderStartsAux (c :: cs) i ScanState.top =
              placeholderStartsAux cs (i + 1) ScanState.top := by
            cases cs with
            | nil => simp [placeholderStartsAux, hc]
            | cons d cs2 => simp [placeholderStartsAux, hc]
          rw [e] at h
          exact step ScanState.top ScanState.top h
      | ident id t =>
        by_cases h1 : c = ':'
        · subst h1
          simp only [placeholderStartsAux, if_pos rfl] at h
          exact step (ScanState.ident id t) (ScanState.spec id t) h
        · by_cases h2 : c = '}'
          · subst h2
            simp only [placeholderStartsAux, if_neg h1, if_pos rfl] at h
            exact step (ScanState.ident id t) ScanState.top h
          · simp only [placeholderStartsAux, if_neg h1, if_neg h2] at h
            exact step (ScanState.ident id t) (ScanState.ident (id ++ [c]) t) h
      | spec id t =>
        by_cases h2 : c = '}'
        · subst h2
          simp only [placeholderStartsAux, if_pos rfl] at h
          exact step (ScanState.spec id t) ScanState.top h
        · simp only [placeholderStartsAux, if_neg h2] at h
          exact step (ScanState.spec id t) (ScanState.spec id (some (t.getD [] ++ [c]))) h

/-- Soundness half of the invariant: every position at which the scan
begins a placeholder is an opening `{` not immediately followed by `{`. -/
theorem placeholderStarts_sound (s : String) (j : Nat) (h : j ∈ placeholderStarts s) :
    isOpenBrace s.data j := by
  obtain ⟨_, hob⟩ :=
    placeholderStartsAux_sound s.data.length s.data (le_refl _) 0 ScanState.top j h
  simpa using hob

/-! ### Segment templates: text interspersed with written placeholders -/

/-- A template segment: one literal character, or one placeholder written
`{}`, `{id}`, `{:sp}` or `{id:sp}`. -/
inductive Seg where
  | lit (c : Char) : Seg
  | ph (id : Option (List Char)) (sp : Option (List Char)) : Seg
deriving DecidableEq, Repr

/-- Rendering one segment back to text. -/
def Seg.render : Seg → List Char
  | Seg.lit c => [c]
  | Seg.ph id sp => '{' :: id.getD [] ++ tStr sp ++ ['}']

def renderT : List Seg → List Char
  | [] => []
  | s :: ss => s.render ++ renderT ss

/-- What the scanner keeps of a written specifier: the `traits` buffer is
only created when at least one character is consumed, so a written empty
specifier (`{x:}`) is dropped. -/
def spNorm : Option (List Char) → Option (List Char)
  | some t => if t = [] then none else some t
  | none => none

/-- The normalized form of one segment at counter `n`: the identifier is
replaced by its canonical form, the specifier by what the scanner keeps. -/
def normSeg : Seg → Int → Seg × Int
  | Seg.lit c, n => (Seg.lit c, n)
  | Seg.ph id sp, n =>
    (Seg.ph (some (canonicalize (id.getD []) n).1) (spNorm sp), (canonicalize (id.getD []) n).2)

def normSegs : List Seg → Int → List Seg × Int
  | [], n => ([], n)
  | s :: ss, n =>
    ((normSeg s n).1 :: (normSegs ss (normSeg s n).2).1, (normSegs ss (normSeg s n).2).2)

/-- The canonical identifiers contributed by a segment list. -/
def segIds : List Seg → Finset String
  | [] => ∅
  | Seg.lit _ :: ss => segIds ss
  | Seg.ph none _ :: ss => segIds ss
  | Seg.ph (some i) _ :: ss => insert (String.mk i) (segIds ss)

/-- Segments the scanner consumes cleanly: a literal character is not `{`; a
written identifier contains no `:` or `}` and does not start with `{`; a
written specifier contains no `}`. -/
def SegOK : Seg → Prop
  | Seg.lit c => c ≠ '{'
  | Seg.ph id sp =>
    (∀ i, id = some i → (∀ c ∈ i, c ≠ ':' ∧ c ≠ '}') ∧ i.head? ≠ some '{') ∧
      ∀ t, sp = some t → '}' ∉ t

/-- Scanning one placeholder body from the identifier sub-scan: the
identifier is collected, the specifier (if nonempty) captured, and on `}`
the canonical token is emitted and the canonical identifier recorded. -/
theorem parseRun_ph_body (i : List Char) (sp : Option (List Char)) (rest text : List Char)
    (ids : Finset String) (n : Int)
    (hi : ∀ c ∈ i, c ≠ ':' ∧ c ≠ '}')
    (hsp : ∀ t, sp = some t → '}' ∉ t) :
    parseRun (i ++ (tStr sp ++ '}' :: rest)) (ScanState.ident [] none) text ids n =
      parseRun rest ScanState.top
        (text ++ '{' :: (canonicalize i n).1 ++ tStr (spNorm sp) ++ ['}'])
        (insert (String.mk (canonicalize i n).1) ids) (canonicalize i n).2 := by
  rw [parseRun_ident_walk i (tStr sp ++ '}' :: rest) [] none text ids n hi, List.nil_append]
  cases sp with
  | none =>
    rw [show tStr none ++ '}' :: rest = '}' :: rest from rfl,
      parseRun_close_ident rest i none text ids n]
    rfl
  | some t =>
    rw [show tStr (some t) ++ '}' :: rest = ':' :: (t ++ '}' :: rest) from rfl,
      parseRun_colon (t ++ '}' :: rest) i none text ids n]
    cases t with
    | nil =>
      rw [List.nil_append, parseRun_close_spec rest i none text ids n]
      rfl
    | cons a t2 =>
      rw [parseRun_spec_walk (a :: t2) ('}' :: rest) i none text ids n (by simp)
        (hsp (a :: t2) rfl)]
      rw [show (none : Option (List Char)).getD [] ++ (a :: t2) = a :: t2 from rfl,
        parseRun_close_spec rest i (some (a :: t2)) text ids n]
      rfl

/-- Scanning one rendered segment from top level. -/
theorem parseRun_seg (s : Seg) (rest text : List Char) (ids : Finset String) (n : Int)
    (hok : SegOK s) :
    parseRun (s.render ++ rest) ScanState.top text ids n =
      parseRun rest ScanState.top (text ++ (normSeg s n).1.render)
        (segIds [(normSeg s n).1] ∪ ids) (normSeg s n).2 := by
  cases s with
  | lit c =>
    have hc : c ≠ '{' := hok
    rw [show Seg.render (Seg.lit c) ++ rest = c :: rest from rfl,
      parseRun_top_char c rest text ids n hc]
    simp [normSeg, segIds, Seg.render]
  | ph id sp =>
    obtain ⟨hid, hsp⟩ := hok
    have hi : ∀ c ∈ id.getD [], c ≠ ':' ∧ c ≠ '}' := by
      cases id with
      | none => intro c hc; cases hc
      | some i => exact (hid i rfl).1
    have hh : (id.getD []).head? ≠ some '{' := by
      cases id with
      | none => simp
      | some i => exact (hid i rfl).2
    have key := parseRun_ph_body (id.getD []) sp rest text ids n hi hsp
    have hstep : parseRun ('{' :: (id.getD [] ++ (tStr sp ++ '}' :: rest))) ScanState.top
        text ids n =
        parseRun (id.getD [] ++ (tStr sp ++ '}' :: rest)) (ScanState.ident [] none)
          text ids n := by
      cases hgd : id.getD [] with
      | nil =>
        cases sp with
        | none => exact parseRun_open '}' rest text ids n (by decide)
        | some t =>
          rw [show ([] : List Char) ++ (tStr (some t) ++ '}' :: rest) =
              ':' :: (t ++ '}' :: rest) from rfl]
          exact parseRun_open ':' (t ++ '}' :: rest) text ids n (by decide)
      | cons a i2 =>
        have ha : a ≠ '{' := by
          rw [hgd] at hh
          simpa using hh
        rw [List.cons_append]
        exact parseRun_open a (i2 ++ (tStr sp ++ '}' :: rest)) text ids n ha
    rw [show Seg.render (Seg.ph id sp) ++ rest =
        '{' :: (id.getD [] ++ (tStr sp ++ '}' :: rest)) from by simp [Seg.render]]
    rw [hstep, key]
    simp [normSeg, segIds, Seg.render, ← Finset.insert_eq]

/-- Main characterization: scanning a rendered segment list appends the
rendering of the normalized segments and collects their canonical
identifiers. -/
theorem parseRun_renderT : ∀ (segs : List Seg), (∀ s ∈ segs, SegOK s) →
    ∀ (text : List Char) (ids : Finset String) (n : Int),
    parseRun (renderT segs) ScanState.top text ids n =
      (text ++ renderT (normSegs segs n).1, segIds (normSegs segs n).1 ∪ ids)
  | [], _, text, ids, n => by simp [renderT, normSegs, segIds, parseRun_nil]
  | s :: ss, hok, text, ids, n => by
    rw [show renderT (s :: ss) = s.render ++ renderT ss from rfl,
      parseRun_seg s (renderT ss) text ids n (hok s (List.mem_cons_self s ss)),
      parseRun_renderT ss (fun x hx => hok x (List.mem_cons_of_mem s hx)) _ _ _]
    cases s with
    | lit c =>
      simp [normSegs, normSeg, segIds, renderT, Seg.render, List.append_assoc]
    | ph id sp =>
      refine Prod.ext ?_ ?_
      · simp [normSegs, normSeg, renderT, Seg.render, List.append_assoc]
      · show segIds (normSegs ss (normSeg (Seg.ph id sp) n).2).1 ∪
            (segIds [(normSeg (Seg.ph id sp) n).1] ∪ ids) = _
        simp only [normSegs, normSeg, segIds]
        ext x
        simp
        tauto

/-! ### Canonical identifiers are stable -/

theorem canonicalize_counter (i : List Char) (n : Int) :
    (canonicalize i n).2 = n ∨ (canonicalize i n).2 = n + 1 := by
  unfold canonicalize
  by_cases hi : i = [] <;> simp [hi] <;> split <;> simp

/-- Every canonical identifier is nonempty and is itself rejected by the
`u8` parse (it starts with `_` or was already a plain name). -/
theorem canonicalize_canon (i : List Char) (n : Int) :
    (canonicalize i n).1 ≠ [] ∧ parsesAsU8 (canonicalize i n).1 = false := by
  by_cases hi : i = []
  · subst hi
    rw [canonicalize_empty]
    exact ⟨by simp, parsesAsU8_head_false '_' _ (by decide) (by decide)⟩
  · by_cases hp : parsesAsU8 i = true
    · rw [canonicalize_u8 i n hp]
      exact ⟨by simp, parsesAsU8_head_false '_' _ (by decide) (by decide)⟩
    · rw [canonicalize_named i n hi (by simpa using hp)]
      exact ⟨hi, by simpa using hp⟩

/-- The canonical identifier contains no `:` or `}` and does not start with
`{`, provided the raw identifier satisfied the same and the counter is at
least `-1` (as it always is, starting from `-1` and only incremented). -/
theorem canonicalize_chars (i : List Char) (n : Int) (hn : -1 ≤ n)
    (hi : ∀ c ∈ i, c ≠ ':' ∧ c ≠ '}') (hh : i.head? ≠ some '{') :
    (∀ c ∈ (canonicalize i n).1, c ≠ ':' ∧ c ≠ '}') ∧
      (canonicalize i n).1.head? ≠ some '{' := by
  by_cases he : i = []
  · subst he
    rw [canonicalize_empty]
    refine ⟨?_, by simp⟩
    intro c hc
    rcases List.mem_cons.mp hc with rfl | hc
    · exact ⟨by decide, by decide⟩
    rcases List.mem_cons.mp hc with rfl | hc
    · exact ⟨by decide, by decide⟩
    · have hd := intToString_digits (n + 1) (by omega) c hc
      obtain ⟨h1, h2, _⟩ := isDigit_ne c hd
      exact ⟨h1, h2⟩
  · by_cases hp : parsesAsU8 i = true
    · rw [canonicalize_u8 i n hp]
      refine ⟨?_, by simp⟩
      intro c hc
      rcases List.mem_cons.mp hc with rfl | hc
      · exact ⟨by decide, by decide⟩
      rcases List.mem_cons.mp hc with rfl | hc
      · exact ⟨by decide, by decide⟩
      · rcases parsesAsU8_chars i hp c hc with rfl | hd
        · exact ⟨by decide, by decide⟩
        · obtain ⟨h1, h2, _⟩ := isDigit_ne c hd
          exact ⟨h1, h2⟩
    · rw [canonicalize_named i n he (by simpa using hp)]
      exact ⟨hi, hh⟩

/-- A segment already in canonical form: the identifier is present, nonempty
and not a `u8` literal; the specifier, when present, is nonempty. -/
def SegCanon : Seg → Prop
  | Seg.lit _ => True
  | Seg.ph id sp =>
    (∃ q, id = some q ∧ q ≠ [] ∧ parsesAsU8 q = false) ∧ ∀ t, sp = some t → t ≠ []

theorem normSeg_counter (s : Seg) (n : Int) (hn : -1 ≤ n) : -1 ≤ (normSeg s n).2 := by
  cases s with
  | lit c => exact hn
  | ph id sp =>
    rcases canonicalize_counter (id.getD []) n with h | h <;>
      simp only [normSeg] <;> omega

theorem normSeg_ok_out (s : Seg) (n : Int) (hn : -1 ≤ n) (h : SegOK s) :
    SegOK (normSeg s n).1 := by
  cases s with
  | lit c => exact h
  | ph id sp =>
    obtain ⟨hid, hsp⟩ := h
    have hi : ∀ c ∈ id.getD [], c ≠ ':' ∧ c ≠ '}' := by
      cases id with
      | none => intro c hc; cases hc
      | some i => exact (hid i rfl).1
    have hh : (id.getD []).head? ≠ some '{' := by
      cases id with
      | none => simp
      | some i => exact (hid i rfl).2
    obtain ⟨hc1, hc2⟩ := canonicalize_chars (id.getD []) n hn hi hh
    constructor
    · intro i2 hi2
      injection hi2 with hi2
      subst hi2
      exact ⟨hc1, hc2⟩
    · intro t ht
      cases sp with
      | none => cases ht
      | some u =>
        by_cases hu : u = []
        · subst hu
          simp [spNorm] at ht
        · simp only [spNorm, if_neg hu] at ht
          injection ht with ht
          subst ht
          exact hsp u rfl

theorem normSeg_canon (s : Seg) (n : Int) : SegCanon (normSeg s n).1 := by
  cases s with
  | lit c => trivial
  | ph id sp =>
    obtain ⟨hne, hu8⟩ := canonicalize_canon (id.getD []) n
    constructor
    · exact ⟨(canonicalize (id.getD []) n).1, rfl, hne, hu8⟩
    · intro t ht
      cases sp with
      | none => cases ht
      | some u =>
        by_cases hu : u = []
        · subst hu
          simp [spNorm] at ht
        · simp only [spNorm, if_neg hu] at ht
          injection ht with ht
          subst ht
          exact hu

/-- Canonical segments are fixed points of normalization, and the counter is
never consumed on them. -/
theorem normSeg_fix (s : Seg) (n : Int) (h : SegCanon s) : normSeg s n = (s, n) := by
  cases s with
  | lit c => rfl
  | ph id sp =>
    obtain ⟨⟨q, rfl, hne, hu8⟩, hsp⟩ := h
    have hc : canonicalize q n = (q, n) := canonicalize_named q n hne hu8
    have hs : spNorm sp = sp := by
      cases sp with
      | none => rfl
      | some u => simp [spNorm, hsp u rfl]
    simp [normSeg, hc, hs]

theorem normSegs_ok_out : ∀ (segs : List Seg) (n : Int), -1 ≤ n → (∀ s ∈ segs, SegOK s) →
    ∀ s ∈ (normSegs segs n).1, SegOK s
  | [], n, _, _ => by intro s hs; simp [normSegs] at hs
  | s :: ss, n, hn, hok => by
    intro x hx
    rw [show (normSegs (s :: ss) n).1 =
        (normSeg s n).1 :: (normSegs ss (normSeg s n).2).1 from rfl] at hx
    rcases List.mem_cons.mp hx with rfl | hx
    · exact normSeg_ok_out s n hn (hok s (List.mem_cons_self s ss))
    · exact normSegs_ok_out ss (normSeg s n).2 (normSeg_counter s n hn)
        (fun y hy => hok y (List.mem_cons_of_mem s hy)) x hx

theorem normSegs_canon : ∀ (segs : List Seg) (n : Int), ∀ s ∈ (normSegs segs n).1, SegCanon s
  | [], n => by intro s hs; simp [normSegs] at hs
  | s :: ss, n => by
    intro x hx
    rw [show (normSegs (s :: ss) n).1 =
        (normSeg s n).1 :: (normSegs ss (normSeg s n).2).1 from rfl] at hx
    rcases List.mem_cons.mp hx with rfl | hx
    · exact normSeg_canon s n
    · exact normSegs_canon ss (normSeg s n).2 x hx

theorem normSegs_fix : ∀ (segs : List Seg) (n : Int), (∀ s ∈ segs, SegCanon s) →
    normSegs segs n = (segs, n)
  | [], n, _ => rfl
  | s :: ss, n, h => by
    have h1 : normSeg s n = (s, n) := normSeg_fix s n (h s (List.mem_cons_self s ss))
    have h2 : normSegs ss n = (ss, n) :=
      normSegs_fix ss n (fun y hy => h y (List.mem_cons_of_mem s hy))
    simp [normSegs, h1, h2]

/-- `parse_internal` on a rendered segment template. -/
theorem parse_internal_renderT (segs : List Seg) (hok : ∀ s ∈ segs, SegOK s) :
    parse_internal (String.mk (renderT segs)) =
      (String.mk (renderT (normSegs segs (-1)).1), segIds (normSegs segs (-1)).1) := by
  unfold parse_internal
  rw [show (String.mk (renderT segs)).data = renderT segs from rfl,
    parseRun_renderT segs hok [] ∅ (-1)]
  simp

/-- Canonical templates are fixed points of `parse_internal`. -/
theorem parse_internal_fix (segs : List Seg) (hok : ∀ s ∈ segs, SegOK s)
    (hcanon : ∀ s ∈ segs, SegCanon s) :
    parse_internal (String.mk (renderT segs)) = (String.mk (renderT segs), segIds segs) := by
  rw [parse_internal_renderT segs hok, normSegs_fix segs (-1) hcanon]

/-- A positional-only template segment: the placeholder identifier is empty
or an explicit positional literal accepted by the `u8` parse. -/
def SegPos : Seg → Prop
  | Seg.lit c => c ≠ '{'
  | Seg.ph id sp =>
    (id = none ∨ ∃ ds, id = some ds ∧ parsesAsU8 ds = true) ∧ ∀ t, sp = some t → '}' ∉ t

theorem SegPos.ok (s : Seg) (h : SegPos s) : SegOK s := by
  cases s with
  | lit c => exact h
  | ph id sp =>
    obtain ⟨hid, hsp⟩ := h
    refine ⟨?_, hsp⟩
    intro i hi
    rcases hid with rfl | ⟨ds, hds1, hds⟩
    · cases hi
    · rw [hds1] at hi
      injection hi with hi
      subst hi
      constructor
      · intro c hc
        rcases parsesAsU8_chars ds hds c hc with e | hd
        · subst e
          exact ⟨by decide, by decide⟩
        · obtain ⟨h1, h2, _⟩ := isDigit_ne c hd
          exact ⟨h1, h2⟩
      · intro hcon
        have hm : '{' ∈ ds := by
          cases ds with
          | nil => cases hcon
          | cons a ds2 =>
            have : a = '{' := by simpa using hcon
            exact this ▸ List.mem_cons_self a ds2
        rcases parsesAsU8_chars ds hds '{' hm with e | hd
        · exact absurd e (by decide)
        · exact absurd hd (by decide)

/-! ### Claim theorems -/

/-- Claim C1: every placeholder with an empty identifier is assigned the
next auto-index in left-to-right scan order — the counter starts at `-1`, is
incremented exactly once per identifier-less placeholder (also when a
specifier is present, which `canonicalize` never sees), and the placeholder
is rewritten with canonical identifier `__<index>`; in particular
`"{} {} {}"` normalizes to `"{__0} {__1} {__2}"` with fields
`{__0, __1, __2}`. -/
theorem auto_increment_correct :
    (∀ n : Int, canonicalize [] n = ('_' :: '_' :: (toString (n + 1)).data, n + 1)) ∧
      parse_internal "{} {} {}" = ("{__0} {__1} {__2}", {"__0", "__1", "__2"}) ∧
      parse_internal "{:x} {}" = ("{__0:x} {__1}", {"__0", "__1"}) :=
  ⟨canonicalize_empty, by decide, by decide⟩

/-- Claim C2 (amended): a placeholder whose raw identifier is accepted by
the 8-bit integer parse (a non-negative literal with value at most 255) is
rewritten to `__<literal>` without advancing the positional counter; equal
literals share one canonical identifier and one field entry while each
occurrence emits its own token; `"{} {1} {0} {}"` normalizes to
`"{__0} {__1} {__0} {__1}"` with fields `{__0, __1}`. -/
theorem explicit_positional_rewrite :
    (∀ (id : List Char) (n : Int), parsesAsU8 id = true →
      canonicalize id n = ('_' :: '_' :: id, n)) ∧
      parse_internal "{} {1} {0} {}" = ("{__0} {__1} {__0} {__1}", {"__0", "__1"}) ∧
      parse_internal "{0} {0:x}" = ("{__0} {__0:x}", {"__0"}) :=
  ⟨canonicalize_u8, by decide, by decide⟩

theorem explicit_positional_rewrite_witness :
    parsesAsU8 ['2', '5'] = true ∧ canonicalize ['2', '5'] 7 = ('_' :: '_' :: ['2', '5'], 7) :=
  ⟨by decide, explicit_positional_rewrite.1 ['2', '5'] 7 (by decide)⟩

/-- Claim C2, counterexample to the unrestricted claim: the explicit
non-negative integer literal `300` is not rewritten to `__300` — the scan
leaves it as the named field `300`. -/
theorem explicit_positional_counterexample :
    parse_internal "{300}" = ("{300}", {"300"}) ∧
      parse_internal "{300}" ≠ ("{__300}", {"__300"}) := by
  constructor <;> decide

/-- Claim C3, counterexample: a template with the literal `256` (greater
than 255) is not rejected; the call returns a complete normal result that
treats `256` as a named field. -/
theorem overflow_not_rejected_counterexample :
    parse_internal "{256}" = ("{256}", {"256"}) ∧
      parse_internal "{256}" ≠ ("{__256}", {"__256"}) := by
  constructor <;> decide

/-- Claim C3 (amended): a decimal literal whose value exceeds 255 is not
rejected and not wrapped — `parse_internal` is total and handles it as a
named field, leaving the identifier unchanged and not consuming the
counter. -/
theorem overflow_treated_as_named :
    (∀ (ds : List Char) (n : Int), (∀ c ∈ ds, c.isDigit = true) → 255 < digitsVal ds →
      canonicalize ds n = (ds, n)) ∧
      parse_internal "{999}" = ("{999}", {"999"}) := by
  refine ⟨?_, by decide⟩
  intro ds n hd hv
  have hne : ds ≠ [] := by
    intro e
    subst e
    simp [digitsVal] at hv
  exact canonicalize_named ds n hne (parsesAsU8_overflow ds hd hv)

theorem overflow_treated_as_named_witness :
    (∀ c ∈ ['3', '0', '0'], Char.isDigit c = true) ∧ 255 < digitsVal ['3', '0', '0'] ∧
      canonicalize ['3', '0', '0'] 0 = (['3', '0', '0'], 0) :=
  ⟨by decide, by decide, overflow_treated_as_named.1 ['3', '0', '0'] 0 (by decide) (by decide)⟩

/-- Claim C4: an input ending inside an unterminated placeholder is
truncated silently — once the scan meets a `{` that opens a placeholder
whose remaining input contains no `}`, the collected fragment produces no
token and no field entry, and the output accumulated before the dangling `{`
is returned unchanged; in particular `"a{b}{q:x"` normalizes to `"a{b}"`
with fields `{b}`. -/
theorem unterminated_truncates :
    (∀ (cs text : List Char) (ids : Finset String) (n : Int),
      cs.head? ≠ some '{' → '}' ∉ cs →
      parseRun ('{' :: cs) ScanState.top text ids n = (text, ids)) ∧
      parse_internal (String.mk ['a', '{', 'b', '}', '{', 'q', ':', 'x']) =
        ("a{b}", {"b"}) :=
  ⟨parseRun_open_trunc, by decide⟩

theorem unterminated_truncates_witness :
    parseRun ('{' :: ['q', 'r']) ScanState.top ['a'] ∅ 5 = (['a'], ∅) :=
  unterminated_truncates.1 ['q', 'r'] ['a'] ∅ 5 (by decide) (by decide)

/-- Claim C5: a captured specifier is copied character for character, with
no interpretation, and re-attached after the canonical identifier with its
leading `:` — for any named identifier and any nonempty specifier without
`}` the template is returned verbatim; in particular `"{value:?}"` and
`"{num:04x} {num:#x}"` normalize to themselves with fields `{value}` and
`{num}`. -/
theorem specifier_passthrough :
    (∀ i t : List Char, i ≠ [] → (∀ c ∈ i, c ≠ ':' ∧ c ≠ '}') → i.head? ≠ some '{' →
      parsesAsU8 i = false → t ≠ [] → '}' ∉ t →
      parse_internal (String.mk ('{' :: i ++ ':' :: t ++ ['}'])) =
        (String.mk ('{' :: i ++ ':' :: t ++ ['}']), {String.mk i})) ∧
      parse_internal "{value:?}" = ("{value:?}", {"value"}) ∧
      parse_internal "{num:04x} {num:#x}" = ("{num:04x} {num:#x}", {"num"}) := by
  refine ⟨?_, by decide, by decide⟩
  intro i t hne hchars hhead hu8 htne htch
  have hok : ∀ s ∈ [Seg.ph (some i) (some t)], SegOK s := by
    intro s hs
    rcases List.mem_singleton.mp hs with rfl
    exact ⟨fun j hj => by injection hj with hj; subst hj; exact ⟨hchars, hhead⟩,
      fun u hu => by injection hu with hu; subst hu; exact htch⟩
  have hcanon : ∀ s ∈ [Seg.ph (some i) (some t)], SegCanon s := by
    intro s hs
    rcases List.mem_singleton.mp hs with rfl
    exact ⟨⟨i, rfl, hne, hu8⟩, fun u hu => by injection hu with hu; subst hu; exact htne⟩
  have hfix := parse_internal_fix [Seg.ph (some i) (some t)] hok hcanon
  simpa [renderT, Seg.render, tStr, segIds] using hfix

theorem specifier_passthrough_witness :
    parse_internal (String.mk ('{' :: ['v'] ++ ':' :: ['?'] ++ ['}'])) =
      (String.mk ('{' :: ['v'] ++ ':' :: ['?'] ++ ['}']), {String.mk ['v']}) :=
  specifier_passthrough.1 ['v'] ['?'] (by decide) (by decide) (by decide) (by decide)
    (by decide) (by decide)

/-- Concatenation of escape blocks `{{` and `}}`. -/
def escRender : List Bool → List Char
  | [] => []
  | true :: bs => '{' :: '{' :: escRender bs
  | false :: bs => '}' :: '}' :: escRender bs

theorem parseRun_escRender : ∀ (bs : List Bool) (text : List Char) (ids : Finset String)
    (n : Int), parseRun (escRender bs) ScanState.top text ids n = (text ++ escRender bs, ids)
  | [], text, ids, n => by simp [escRender, parseRun_nil]
  | true :: bs, text, ids, n => by
    rw [show escRender (true :: bs) = '{' :: '{' :: escRender bs from rfl, parseRun_esc,
      parseRun_escRender bs _ _ _]
    simp
  | false :: bs, text, ids, n => by
    rw [show escRender (false :: bs) = '}' :: '}' :: escRender bs from rfl,
      parseRun_top_char '}' _ _ _ _ (by decide),
      parseRun_top_char '}' _ _ _ _ (by decide),
      parseRun_escRender bs _ _ _]
    simp

/-- Claim C6: `{{` is not a placeholder — the scan copies the two-character
literal `{{` to the output and contributes nothing to the field set; hence a
template made only of escaped braces `{{`/`}}` is preserved as written with
an empty field set. -/
theorem braces_escape :
    (∀ (cs text : List Char) (ids : Finset String) (n : Int),
      parseRun ('{' :: '{' :: cs) ScanState.top text ids n =
        parseRun cs ScanState.top (text ++ ['{', '{']) ids n) ∧
      ∀ bs : List Bool,
        parse_internal (String.mk (escRender bs)) = (String.mk (escRender bs), ∅) := by
  refine ⟨parseRun_esc, ?_⟩
  intro bs
  show (String.mk (parseRun (escRender bs) ScanState.top [] ∅ (-1)).1,
      (parseRun (escRender bs) ScanState.top [] ∅ (-1)).2) = _
  rw [parseRun_escRender bs [] ∅ (-1)]
  simp

/-- Claim C7, counterexample: in `"{a{b}"` the `{` at position 2 is an
opening brace not immediately followed by another `{`, yet the scan begins
only one placeholder, at position 0 — the inner `{` does not begin a
placeholder. -/
theorem brace_invariant_counterexample :
    isOpenBrace ['{', 'a', '{', 'b', '}'] 2 ∧
      2 ∉ placeholderStarts (String.mk ['{', 'a', '{', 'b', '}']) ∧
      placeholderStarts (String.mk ['{', 'a', '{', 'b', '}']) = [0] := by
  refine ⟨?_, by decide, by decide⟩
  decide

/-- Claim C7 (amended): every position at which the scan begins a
placeholder is an opening `{` not immediately followed by `{`, but the
converse fails for a `{` inside another placeholder's body, which is
consumed as identifier text: `"{a{b}"` yields the single field `a{b`. -/
theorem brace_invariant_amended :
    (∀ (s : String) (j : Nat), j ∈ placeholderStarts s → isOpenBrace s.data j) ∧
      parse_internal (String.mk ['{', 'a', '{', 'b', '}']) =
        (String.mk ['{', 'a', '{', 'b', '}'], {String.mk ['a', '{', 'b']}) :=
  ⟨placeholderStarts_sound, by decide⟩

theorem brace_invariant_amended_witness :
    0 ∈ placeholderStarts "{x}" ∧ isOpenBrace "{x}".data 0 :=
  ⟨by decide, brace_invariant_amended.1 "{x}" 0 (by decide)⟩

/-- Claim C8: a template containing no `{` and no `}` is returned unchanged
with an empty field set; the empty input gives an empty output and an empty
field set. -/
theorem no_braces_identity :
    (∀ s : String, '{' ∉ s.data → '}' ∉ s.data → parse_internal s = (s, ∅)) ∧
      parse_internal "" = ("", ∅) := by
  refine ⟨?_, by decide⟩
  intro s h1 _
  have e := parseRun_top_walk s.data [] [] ∅ (-1) h1
  rw [List.append_nil, List.nil_append, parseRun_nil] at e
  show (String.mk (parseRun s.data ScanState.top [] ∅ (-1)).1,
      (parseRun s.data ScanState.top [] ∅ (-1)).2) = (s, ∅)
  rw [e]

theorem no_braces_identity_witness :
    parse_internal "abc" = ("abc", ∅) :=
  no_braces_identity.1 "abc" (by decide) (by decide)

/-- Claim C9: normalization is idempotent on positional-only templates —
re-normalizing the rewritten output changes neither the text nor the field
set, the canonical `__n` names being stable fixed points. -/
theorem normalize_idempotent :
    (∀ segs : List Seg, (∀ s ∈ segs, SegPos s) →
      parse_internal (parse_internal (String.mk (renderT segs))).1 =
        parse_internal (String.mk (renderT segs))) ∧
      parse_internal "{__0} {__1}" = ("{__0} {__1}", {"__0", "__1"}) := by
  refine ⟨?_, by decide⟩
  intro segs hpos
  have hok : ∀ s ∈ segs, SegOK s := fun s hs => SegPos.ok s (hpos s hs)
  rw [parse_internal_renderT segs hok]
  exact parse_internal_fix (normSegs segs (-1)).1
    (normSegs_ok_out segs (-1) (by omega) hok) (normSegs_canon segs (-1))

theorem normalize_idempotent_witness :
    parse_internal (parse_internal (String.mk (renderT [Seg.ph none none]))).1 =
      parse_internal (String.mk (renderT [Seg.ph none none])) :=
  normalize_idempotent.1 [Seg.ph none none] (by
    intro s hs
    rcases List.mem_singleton.mp hs with rfl
    exact ⟨Or.inl rfl, fun t ht => nomatch ht⟩)

/-- Claim C10: a nonempty raw identifier that the 8-bit integer parse
rejects — including decimal literals greater than 255 — raises no error: it
is treated as a named field, emitted unchanged, and inserted verbatim into
the field set. -/
theorem named_identifier_passthrough :
    (∀ (id : List Char) (n : Int), id ≠ [] → parsesAsU8 id = false →
      canonicalize id n = (id, n)) ∧
      parse_internal "{1000}" = ("{1000}", {"1000"}) ∧
      parse_internal "{foo}" = ("{foo}", {"foo"}) :=
  ⟨canonicalize_named, by decide, by decide⟩

theorem named_identifier_passthrough_witness :
    canonicalize ['2', '5', '6'] 3 = (['2', '5', '6'], 3) :=
  named_identifier_passthrough.1 ['2', '5', '6'] 3 (by decide) (by decide)
